import Mathlib

/-!
Shallow embedding of the word-search puzzle generator
(`word_puzzle` package: `domain/value_objects.py`, `domain/entities.py`,
`application/services.py`, `application/use_cases.py`).

Modelling conventions, used consistently below:
* Python `str` grid cells are `Option Char`: the empty-string sentinel `''`
  becomes `none`, a written single character `c` becomes `some c`.
* The mutable `size × size` list-of-lists grid is modelled extensionally as a
  total function `Position → Option Char`; every observable access in the
  source goes through `get_cell`/`set_cell`, which bounds-check first, so the
  function view coincides with the matrix view on all observable reads.
* Methods that can raise (`set_cell`, `get_cell` on out-of-bounds positions,
  `placements[-1]` on an empty list) return `Except String _`; `.error` models
  a raised exception propagating to the caller.
* `random.shuffle` / `random.choice` draw from the process-wide random source;
  the source is modelled as a stream `g : ℕ → ℕ` of draws together with a
  cursor `k : ℕ` threaded through every consumer, and `shuffleWith` produces a
  permutation of its input for every stream (proved below).
* Python integers are `ℤ` for grid coordinates (they can go negative during
  probing) and `ℕ` for counts and indices.
-/

/-- Value object `Position` (value_objects.py): an immutable (row, col) pair. -/
structure Position where
  row : ℤ
  col : ℤ
deriving DecidableEq, Repr

/-- Value object `Direction` (value_objects.py): (row_delta, col_delta, name). -/
structure Direction where
  row_delta : ℤ
  col_delta : ℤ
  name : String
deriving DecidableEq, Repr

/-- Substring containment on character lists, modelling Python's
`'pat' in s` membership test on strings. -/
def containsSub (pat s : List Char) : Bool :=
  (List.range (s.length + 1)).any fun i => pat.isPrefixOf (s.drop i)

/-- ASCII lowercasing of one character, modelling `str.lower()` on the
ASCII direction names the repository uses. -/
def lowerChar (c : Char) : Char :=
  if 'A' ≤ c ∧ c ≤ 'Z' then Char.ofNat (c.toNat + 32) else c

/-- Model of `self.name.lower()` as a character list. -/
def lowerName (d : Direction) : List Char :=
  d.name.data.map lowerChar

/-- `Direction.is_horizontal`: `'horizontal' in self.name.lower()`. -/
def Direction.is_horizontal (d : Direction) : Bool :=
  containsSub "horizontal".data (lowerName d)

/-- `Direction.is_vertical`: `'vertical' in self.name.lower()`. -/
def Direction.is_vertical (d : Direction) : Bool :=
  containsSub "vertical".data (lowerName d)

/-- `Direction.is_diagonal`: `'diagonal' in self.name.lower()`. -/
def Direction.is_diagonal (d : Direction) : Bool :=
  containsSub "diagonal".data (lowerName d)

/-- Enumeration `DirectionType` (value_objects.py). -/
inductive DirectionType where
  | HORIZONTAL
  | VERTICAL
  | DIAGONAL
deriving DecidableEq, Repr

/-- Value object `Word` (value_objects.py): a nonempty string, normalized to
uppercase by `__post_init__`.  The claims below quantify over already
normalized values; nonemptiness enters as an explicit hypothesis where a
claim needs it. -/
structure Word where
  value : String
deriving DecidableEq, Repr

/-- Character of a word at an index, `word.value[index]`.  Every placement
built by the generator indexes within bounds (positions are derived with
length equal to the word length), so the default is unreachable there. -/
def Word.charAt (w : Word) (i : ℕ) : Char :=
  w.value.data.getD i '?'

/-- The eight predefined directions of class `Directions` (value_objects.py). -/
def Directions.HORIZONTAL_RIGHT : Direction := ⟨0, 1, "horizontal_right"⟩

def Directions.HORIZONTAL_LEFT : Direction := ⟨0, -1, "horizontal_left"⟩

def Directions.VERTICAL_DOWN : Direction := ⟨1, 0, "vertical_down"⟩

def Directions.VERTICAL_UP : Direction := ⟨-1, 0, "vertical_up"⟩

def Directions.DIAGONAL_DOWN_RIGHT : Direction := ⟨1, 1, "diagonal_down_right"⟩

def Directions.DIAGONAL_DOWN_LEFT : Direction := ⟨1, -1, "diagonal_down_left"⟩

def Directions.DIAGONAL_UP_RIGHT : Direction := ⟨-1, 1, "diagonal_up_right"⟩

def Directions.DIAGONAL_UP_LEFT : Direction := ⟨-1, -1, "diagonal_up_left"⟩

/-- `Directions.all()`. -/
def Directions.all : List Direction :=
  [Directions.HORIZONTAL_RIGHT, Directions.HORIZONTAL_LEFT,
   Directions.VERTICAL_DOWN, Directions.VERTICAL_UP,
   Directions.DIAGONAL_DOWN_RIGHT, Directions.DIAGONAL_DOWN_LEFT,
   Directions.DIAGONAL_UP_RIGHT, Directions.DIAGONAL_UP_LEFT]

/-- `Directions.horizontal()`. -/
def Directions.horizontal : List Direction :=
  [Directions.HORIZONTAL_RIGHT, Directions.HORIZONTAL_LEFT]

/-- `Directions.vertical()`. -/
def Directions.vertical : List Direction :=
  [Directions.VERTICAL_DOWN, Directions.VERTICAL_UP]

/-- `Directions.diagonal()`. -/
def Directions.diagonal : List Direction :=
  [Directions.DIAGONAL_DOWN_RIGHT, Directions.DIAGONAL_DOWN_LEFT,
   Directions.DIAGONAL_UP_RIGHT, Directions.DIAGONAL_UP_LEFT]

/-- `WordPlacement._calculate_positions` (entities.py): the grid positions
occupied by a word starting at `start` along `direction`. -/
def calculate_positions (w : Word) (start : Position) (dir : Direction) : List Position :=
  (List.range w.value.length).map fun (i : ℕ) =>
    (⟨start.row + (i : ℤ) * dir.row_delta, start.col + (i : ℤ) * dir.col_delta⟩ : Position)

/-- Entity `WordPlacement` (entities.py): word, start, direction and the
derived occupied positions. -/
structure WordPlacement where
  word : Word
  start_position : Position
  direction : Direction
  positions : List Position
deriving DecidableEq, Repr

/-- Constructing `WordPlacement(word, position, direction)`: `__post_init__`
fills `positions` from `_calculate_positions` (the code never passes an
explicit positions list). -/
def WordPlacement.make (w : Word) (start : Position) (dir : Direction) : WordPlacement :=
  ⟨w, start, dir, calculate_positions w start dir⟩

/-- `WordPlacement.get_character_at`. -/
def WordPlacement.get_character_at (pl : WordPlacement) (i : ℕ) : Char :=
  pl.word.charAt i

/-- Entity `Puzzle` (entities.py).  The grid starts with every cell holding
the empty sentinel (`__post_init__`). -/
structure Puzzle where
  grid_size : ℕ
  words : List Word
  placements : List WordPlacement
  grid : Position → Option Char

/-- `Puzzle(grid_size=…, words=…)` as constructed by the use case: fresh
empty grid, no placements. -/
def Puzzle.init (grid_size : ℕ) (words : List Word) : Puzzle :=
  ⟨grid_size, words, [], fun _ => none⟩

/-- `Puzzle.is_valid_position`. -/
def Puzzle.is_valid_position (p : Puzzle) (pos : Position) : Bool :=
  decide (0 ≤ pos.row) && decide (pos.row < (p.grid_size : ℤ)) &&
    decide (0 ≤ pos.col) && decide (pos.col < (p.grid_size : ℤ))

/-- `Puzzle.get_cell`: raises `ValueError` on an invalid position. -/
def Puzzle.get_cell (p : Puzzle) (pos : Position) : Except String (Option Char) :=
  if p.is_valid_position pos then .ok (p.grid pos)
  else .error "Position is out of bounds"

/-- `Puzzle.set_cell`: raises `ValueError` on an invalid position. -/
def Puzzle.set_cell (p : Puzzle) (pos : Position) (c : Option Char) : Except String Puzzle :=
  if p.is_valid_position pos then
    .ok { p with grid := fun q => if q = pos then c else p.grid q }
  else .error "Position is out of bounds"

/-- Loop body of `Puzzle.add_placement`: write `placement.get_character_at i`
at the i-th position, for the listed positions starting at index `i`. -/
def writeChars (p : Puzzle) (pl : WordPlacement) : ℕ → List Position → Except String Puzzle
  | _, [] => .ok p
  | i, pos :: rest => do
      let p' ← p.set_cell pos (some (pl.get_character_at i))
      writeChars p' pl (i + 1) rest

/-- `Puzzle.add_placement`: write every character along the path, then append
the placement. -/
def Puzzle.add_placement (p : Puzzle) (pl : WordPlacement) : Except String Puzzle := do
  let p' ← writeChars p pl 0 pl.positions
  .ok { p' with placements := p'.placements ++ [pl] }

/-- `Puzzle.can_place_word`: every index of the word must land in bounds on a
cell that is empty or already holds that exact character.  The Python body
reads the cell through `get_cell` only after `is_valid_position` passed, so
the read cannot raise and is modelled by the direct grid lookup. -/
def Puzzle.can_place_word (p : Puzzle) (w : Word) (start : Position) (dir : Direction) : Bool :=
  (List.range w.value.length).all fun (i : ℕ) =>
    let pos : Position := ⟨start.row + (i : ℤ) * dir.row_delta,
                           start.col + (i : ℤ) * dir.col_delta⟩
    p.is_valid_position pos &&
      match p.grid pos with
      | none => true
      | some c => c = w.charAt i

/-- `Puzzle.is_complete`. -/
def Puzzle.is_complete (p : Puzzle) : Bool :=
  p.placements.length ≥ p.words.length

/-- `Puzzle.reset`: every cell back to the sentinel, placements cleared. -/
def Puzzle.reset (p : Puzzle) : Puzzle :=
  { p with grid := fun _ => none, placements := [] }

/-! ## Random source model

`random.shuffle` permutes its list in place.  The model is a selection
shuffle driven by the draw stream `g`: at cursor `k` it removes the element
at index `g k % length` and recurses on the remainder with cursor `k + 1`.
Every output is a permutation of the input (`shuffleGo_perm` below), and
every permutation is reachable for a suitable stream, which is all the
repository observes of `random.shuffle`.  The fuel argument only mirrors the
input length and is never exhausted. -/

/-- Selection shuffle, one stream draw consumed per element chosen. -/
def shuffleGo {α : Type} (g : ℕ → ℕ) : ℕ → ℕ → List α → List α × ℕ
  | 0, k, xs => (xs, k)
  | _ + 1, k, [] => ([], k)
  | fuel + 1, k, x :: xs =>
      let l := x :: xs
      let i := g k % l.length
      let r := shuffleGo g fuel (k + 1) (l.eraseIdx i)
      (l.getD i x :: r.1, r.2)

/-- Model of `random.shuffle(xs)` at cursor `k`: the permuted list and the
new cursor. -/
def shuffleWith {α : Type} (g : ℕ → ℕ) (k : ℕ) (xs : List α) : List α × ℕ :=
  shuffleGo g xs.length k xs

/-- Model of `random.choice(string.ascii_uppercase)` at cursor `k`. -/
def randLetter (g : ℕ → ℕ) (k : ℕ) : Char :=
  Char.ofNat ('A'.toNat + g k % 26)

/-! ## DirectionBalancer (services.py) -/

/-- `DirectionBalancer`: total word count and the per-category counters of
the `counts` dictionary. -/
structure DirectionBalancer where
  total_words : ℕ
  horizontal_count : ℕ
  vertical_count : ℕ
  diagonal_count : ℕ
deriving DecidableEq, Repr

/-- `DirectionBalancer(total_words)`: all counters start at zero. -/
def DirectionBalancer.init (total_words : ℕ) : DirectionBalancer :=
  ⟨total_words, 0, 0, 0⟩

/-- `DirectionBalancer.increment`: horizontal first, then vertical, and any
other direction is counted as diagonal. -/
def DirectionBalancer.increment (b : DirectionBalancer) (d : Direction) : DirectionBalancer :=
  if d.is_horizontal then { b with horizontal_count := b.horizontal_count + 1 }
  else if d.is_vertical then { b with vertical_count := b.vertical_count + 1 }
  else { b with diagonal_count := b.diagonal_count + 1 }

/-- `DirectionBalancer.get_priority_directions`: underrepresented categories
first, otherwise round-robin on the word index over
`[horizontal, vertical, diagonal]`. -/
def DirectionBalancer.get_priority_directions (b : DirectionBalancer) (word_index : ℕ) :
    List Direction :=
  let target_per_category := b.total_words / 3
  let horizontal := Directions.horizontal
  let vertical := Directions.vertical
  let diagonal := Directions.diagonal
  if b.diagonal_count < target_per_category then diagonal ++ horizontal ++ vertical
  else if b.horizontal_count < target_per_category then horizontal ++ diagonal ++ vertical
  else if b.vertical_count < target_per_category then vertical ++ diagonal ++ horizontal
  else
    let all_directions := [horizontal, vertical, diagonal]
    let group_idx := word_index % all_directions.length
    let selected := all_directions.getD group_idx []
    let others := ((all_directions.enum.filter fun pr => pr.1 ≠ group_idx).map
      fun pr => pr.2).flatten
    selected ++ others

/-- The exact rational value of the Python literal `0.2`, written as a raw
`Rat` so that its numerator and denominator reduce definitionally (the `ℚ`
division and multiplication operations do not reduce in the kernel). -/
def oneFifth : ℚ := ⟨1, 5, by decide, by decide⟩

/-- `DirectionBalancer.has_sufficient_diagonal_coverage`: the comparison
`diagonal_count >= total_words * min_percentage` with default threshold
`0.2`, in exact rational arithmetic: cross-multiplication with the positive
denominator, proved equivalent to the `ℚ` inequality in `gate_iff_rat`.
`total_words * 0.2` in IEEE double agrees with the exact value of
`total_words / 5` at every integer threshold for all realistic word counts,
so exact arithmetic is a faithful model of the float comparison. -/
def DirectionBalancer.has_sufficient_diagonal_coverage (b : DirectionBalancer)
    (min_percentage : ℚ := oneFifth) : Bool :=
  decide ((b.total_words : ℤ) * min_percentage.num ≤
    (b.diagonal_count : ℤ) * (min_percentage.den : ℤ))

/-! ## WordPlacementService (services.py) -/

/-- `WordPlacementService._get_all_positions`: all grid positions in
row-major order. -/
def get_all_positions (p : Puzzle) : List Position :=
  ((List.range p.grid_size).map fun (r : ℕ) =>
    (List.range p.grid_size).map fun (c : ℕ) => (⟨(r : ℤ), (c : ℤ)⟩ : Position)).flatten

/-- Inner loop of `try_place_word`: scan the (already shuffled) start
positions for the first at which the word fits in direction `dir`, and
commit it there. -/
def scanPositions (p : Puzzle) (w : Word) (dir : Direction) :
    List Position → Except String (Option Puzzle)
  | [] => .ok none
  | pos :: rest =>
      if p.can_place_word w pos dir then do
        let p' ← p.add_placement (.make w pos dir)
        .ok (some p')
      else scanPositions p w dir rest

/-- Outer loop of `try_place_word`: for each direction in (shuffled) order,
shuffle the start positions and scan them. -/
def tryDirections (p : Puzzle) (w : Word) (g : ℕ → ℕ) :
    List Direction → ℕ → Except String (Option Puzzle × ℕ)
  | [], k => .ok (none, k)
  | dir :: rest, k => do
      let sp := shuffleWith g k (get_all_positions p)
      let res ← scanPositions p w dir sp.1
      match res with
      | some p' => .ok (some p', sp.2)
      | none => tryDirections p w g rest sp.2

/-- Result of `try_place_word`.  `res` is `some` of the updated puzzle on
success and `none` on failure (the Python method returns a bool and mutates
the puzzle); `dirs` is the final content of the caller's directions list,
which `random.shuffle` permuted in place; `k` is the stream cursor. -/
structure TryResult where
  res : Option Puzzle
  dirs : List Direction
  k : ℕ

/-- `WordPlacementService.try_place_word`: shuffle the candidate directions
in place, then probe direction by direction over shuffled start positions. -/
def try_place_word (p : Puzzle) (w : Word) (directions : List Direction) (g : ℕ → ℕ)
    (k : ℕ) : Except String TryResult := do
  let sd := shuffleWith g k directions
  let r ← tryDirections p w g sd.1 sd.2
  .ok ⟨r.1, sd.1, r.2⟩

/-- Loop body of `fill_empty_cells` over the row-major positions: cells still
holding the sentinel get a random uppercase letter (one stream draw each). -/
def fillGo (g : ℕ → ℕ) : Puzzle → ℕ → List Position → Except String (Puzzle × ℕ)
  | p, k, [] => .ok (p, k)
  | p, k, pos :: rest => do
      let c ← p.get_cell pos
      match c with
      | none => do
          let p' ← p.set_cell pos (some (randLetter g k))
          fillGo g p' (k + 1) rest
      | some _ => fillGo g p k rest

/-- `WordPlacementService.fill_empty_cells`: the Python double loop over
`range(grid_size)` visits exactly the row-major positions. -/
def fill_empty_cells (p : Puzzle) (g : ℕ → ℕ) (k : ℕ) : Except String (Puzzle × ℕ) :=
  fillGo g p k (get_all_positions p)

/-! ## PuzzleGenerationStrategy (services.py) -/

/-- Insert a word into a length-descending list, keeping it after the words
at least as long. -/
def insertByLenDesc (w : Word) : List Word → List Word
  | [] => [w]
  | x :: xs =>
      if x.value.length < w.value.length then w :: x :: xs
      else x :: insertByLenDesc w xs

/-- `sorted(puzzle.words, key=len, reverse=True)`: a length-descending
permutation of the words.  A uniform shuffle of the result follows
immediately in `generate`, so the tie order among equal lengths is not
observable. -/
def sortWordsDesc (ws : List Word) : List Word :=
  ws.foldr insertByLenDesc []

/-- Word-placing loop of `_attempt_placement`: for the word at index `i`,
probe with the balancer's priority directions; on success bump the balancer
with the direction of `puzzle.placements[-1]` (an `IndexError` if the list
were empty); on failure the whole attempt fails. -/
def attemptWords (g : ℕ → ℕ) :
    Puzzle → DirectionBalancer → ℕ → List Word → ℕ →
      Except String (Option (Puzzle × DirectionBalancer) × ℕ)
  | p, b, _, [], k => .ok (some (p, b), k)
  | p, b, i, w :: rest, k => do
      let priority_directions := b.get_priority_directions i
      let r ← try_place_word p w priority_directions g k
      match r.res with
      | none => .ok (none, r.k)
      | some p' =>
          match p'.placements.getLast? with
          | none => .error "IndexError: list index out of range"
          | some last_placement =>
              attemptWords g p' (b.increment last_placement.direction) (i + 1) rest r.k

/-- `PuzzleGenerationStrategy._attempt_placement`: place every word, then
gate on diagonal coverage.  `some p'` models returning `True` with the
puzzle mutated to `p'`; `none` models returning `False` (the caller resets
the puzzle before it is ever read again). -/
def attempt_placement (p : Puzzle) (words : List Word) (g : ℕ → ℕ) (k : ℕ) :
    Except String (Option Puzzle × ℕ) := do
  let b := DirectionBalancer.init words.length
  let r ← attemptWords g p b 0 words k
  match r.1 with
  | none => .ok (none, r.2)
  | some (p', b') =>
      .ok (if b'.has_sufficient_diagonal_coverage then some p' else none, r.2)

/-- Result of `PuzzleGenerationStrategy.generate`: the returned bool, the
puzzle (mutated in place by the Python method), the number of attempts the
loop ran, and the stream cursor. -/
structure GenResult where
  success : Bool
  puzzle : Puzzle
  attempts : ℕ
  k : ℕ

/-- Attempt loop of `generate`: reset, shuffle a copy of the sorted words,
attempt placement; on acceptance fill the empty cells and stop.  The fuel is
the remaining iteration count of `for _ in range(self.max_attempts)`. -/
def generateLoop (g : ℕ → ℕ) (sorted_words : List Word) (p0 : Puzzle) :
    ℕ → ℕ → ℕ → Except String GenResult
  | 0, k, used => .ok ⟨false, p0, used, k⟩
  | fuel + 1, k, used => do
      let p := p0.reset
      let sw := shuffleWith g k sorted_words
      let r ← attempt_placement p sw.1 g sw.2
      match r.1 with
      | some p' => do
          let f ← fill_empty_cells p' g r.2
          .ok ⟨true, f.1, used + 1, f.2⟩
      | none => generateLoop g sorted_words p0 fuel r.2 (used + 1)

/-- `PuzzleGenerationStrategy.generate` (`max_attempts` defaults to 1000):
sort the words longest first, then run up to `max_attempts` attempts. -/
def generate (max_attempts : ℕ := 1000) (p : Puzzle) (g : ℕ → ℕ) (k : ℕ) :
    Except String GenResult :=
  generateLoop g (sortWordsDesc p.words) p max_attempts k 0

/-! ## GeneratePuzzleUseCase._generate_puzzles (use_cases.py)

The use case calls `self.generation_strategy.generate(puzzle)` on a fresh
`Puzzle(grid_size=grid_size, words=words)` each iteration; the injected
strategy is abstracted as the oracle `gen`, fed the attempt index (which
stands for the advancing state of the shared random source) and the fresh
puzzle, and returning the bool and the mutated puzzle. -/

/-- Loop of `_generate_puzzles`: `for attempt in range(count * 10)`, break
once `count` puzzles are collected, append one puzzle per successful
`generate` call.  `calls` counts the `generate` invocations made. -/
def genLoop (gen : ℕ → Puzzle → Bool × Puzzle) (grid_size : ℕ) (words : List Word)
    (count : ℕ) : ℕ → ℕ → List Puzzle → ℕ → List Puzzle × ℕ
  | 0, _, puzzles, calls => (puzzles, calls)
  | fuel + 1, attempt, puzzles, calls =>
      if puzzles.length ≥ count then (puzzles, calls)
      else
        let p := Puzzle.init grid_size words
        let r := gen attempt p
        genLoop gen grid_size words count fuel (attempt + 1)
          (if r.1 then puzzles ++ [r.2] else puzzles) (calls + 1)

/-- `GeneratePuzzleUseCase._generate_puzzles`: the collected puzzles and the
number of generation attempts actually made. -/
def generate_puzzles (gen : ℕ → Puzzle → Bool × Puzzle) (grid_size : ℕ)
    (words : List Word) (count : ℕ) : List Puzzle × ℕ :=
  genLoop gen grid_size words count (count * 10) 0 [] 0

/-! ## Permutation facts about the shuffle model -/

lemma getD_cons_eraseIdx_perm {α : Type} (d : α) :
    ∀ (l : List α) (i : ℕ), i < l.length → List.Perm (l.getD i d :: l.eraseIdx i) l
  | [], i, h => by simp at h
  | x :: xs, 0, _ => by simp
  | x :: xs, i + 1, h => by
      have ih := getD_cons_eraseIdx_perm d xs i (by simpa using h)
      simp only [List.getD_cons_succ, List.eraseIdx_cons_succ]
      exact (List.Perm.swap x (xs.getD i d) (xs.eraseIdx i)).trans (ih.cons x)

lemma shuffleGo_perm {α : Type} (g : ℕ → ℕ) :
    ∀ (fuel k : ℕ) (xs : List α), List.Perm (shuffleGo g fuel k xs).1 xs
  | 0, k, xs => by simp [shuffleGo]
  | fuel + 1, k, [] => by simp [shuffleGo]
  | fuel + 1, k, x :: xs => by
      have hi : g k % (x :: xs).length < (x :: xs).length :=
        Nat.mod_lt _ (by simp)
      have ih := shuffleGo_perm g fuel (k + 1) ((x :: xs).eraseIdx (g k % (x :: xs).length))
      simp only [shuffleGo]
      exact (ih.cons _).trans (getD_cons_eraseIdx_perm x (x :: xs) _ hi)

lemma shuffleWith_perm {α : Type} (g : ℕ → ℕ) (k : ℕ) (xs : List α) :
    List.Perm (shuffleWith g k xs).1 xs :=
  shuffleGo_perm g xs.length k xs

/-! ## Grid write lemmas -/

lemma set_cell_ok {p : Puzzle} {pos : Position} (c : Option Char)
    (h : p.is_valid_position pos = true) :
    p.set_cell pos c = .ok { p with grid := fun q => if q = pos then c else p.grid q } := by
  simp [Puzzle.set_cell, h]

lemma writeChars_spec (pl : WordPlacement) :
    ∀ (l : List Position) (p : Puzzle) (i : ℕ),
      (∀ pos ∈ l, p.is_valid_position pos = true) → l.Nodup →
      ∃ p', writeChars p pl i l = .ok p' ∧
        p'.grid_size = p.grid_size ∧ p'.words = p.words ∧ p'.placements = p.placements ∧
        (∀ q, q ∉ l → p'.grid q = p.grid q) ∧
        (∀ j, (hj : j < l.length) →
          p'.grid (l.get ⟨j, hj⟩) = some (pl.get_character_at (i + j)))
  | [], p, i, _, _ => ⟨p, by simp [writeChars], rfl, rfl, rfl, fun _ _ => rfl, fun j hj => by simp at hj⟩
  | pos :: rest, p, i, hv, hnd => by
      have hvpos : p.is_valid_position pos = true := hv pos (by simp)
      set p1 : Puzzle := { p with grid := fun q => if q = pos then some (pl.get_character_at i) else p.grid q } with hp1
      have hv1 : ∀ q ∈ rest, p1.is_valid_position q = true := by
        intro q hq
        have := hv q (by simp [hq])
        simpa [hp1, Puzzle.is_valid_position] using this
      obtain ⟨p', hrun, hsz, hw, hpl, hframe, hwrites⟩ :=
        writeChars_spec pl rest p1 (i + 1) hv1 hnd.of_cons
      refine ⟨p', ?_, by simpa [hp1] using hsz, by simpa [hp1] using hw,
        by simpa [hp1] using hpl, ?_, ?_⟩
      · simp only [writeChars, set_cell_ok _ hvpos, Except.bind, Bind.bind]
        exact hrun
      · intro q hq
        have hq1 : q ∉ rest := fun h => hq (by simp [h])
        have hqpos : q ≠ pos := fun h => hq (by simp [h])
        rw [hframe q hq1]; simp [hp1, hqpos]
      · intro j hj
        match j with
        | 0 =>
            have hpos1 : pos ∉ rest := (List.nodup_cons.mp hnd).1
            rw [List.get]
            rw [hframe pos hpos1]
            simp [hp1]
        | j + 1 =>
            have hj' : j < rest.length := by simpa using hj
            have := hwrites j hj'
            rw [List.get]
            simpa [Nat.add_assoc, Nat.add_comm 1 j] using this

lemma writeChars_preserves (pl : WordPlacement) :
    ∀ (l : List Position) (p p' : Puzzle) (i : ℕ),
      writeChars p pl i l = .ok p' → l.Nodup →
      (∀ j, (hj : j < l.length) →
        p.grid (l.get ⟨j, hj⟩) = none ∨
          p.grid (l.get ⟨j, hj⟩) = some (pl.get_character_at (i + j))) →
      ∀ q c, p.grid q = some c → p'.grid q = some c
  | [], p, p', i, hrun, _, _ => by
      simp [writeChars] at hrun
      subst hrun; exact fun q c h => h
  | pos :: rest, p, p', i, hrun, hnd, hagree => by
      by_cases hvpos : p.is_valid_position pos = true
      · rw [writeChars] at hrun
        rw [set_cell_ok _ hvpos] at hrun
        simp only [Except.bind, Bind.bind] at hrun
        set p1 : Puzzle := { p with grid := fun q => if q = pos then some (pl.get_character_at i) else p.grid q } with hp1
        have hposrest : pos ∉ rest := (List.nodup_cons.mp hnd).1
        have hagree1 : ∀ j, (hj : j < rest.length) →
            p1.grid (rest.get ⟨j, hj⟩) = none ∨
              p1.grid (rest.get ⟨j, hj⟩) = some (pl.get_character_at (i + 1 + j)) := by
          intro j hj
          have he : rest.get ⟨j, hj⟩ ≠ pos := by
            intro h; exact hposrest (h ▸ rest.get_mem j hj)
          have := hagree (j + 1) (by simpa using Nat.succ_lt_succ hj)
          simp only [List.get] at this
          simp only [hp1, if_neg he]
          simpa [Nat.add_assoc, Nat.add_comm 1 j] using this
        intro q c hq
        have hq1 : p1.grid q = some c := by
          by_cases he : q = pos
          · subst he
            rcases hagree 0 (by simp) with h0 | h0
            · simp only [List.get] at h0; rw [hq] at h0; cases h0
            · simp only [List.get] at h0; rw [hq] at h0
              simp only [hp1, if_pos rfl]
              simpa [Nat.add_zero] using h0.symm
          · simp only [hp1, if_neg he]; exact hq
        exact writeChars_preserves pl rest p1 p' (i + 1) hrun (List.nodup_cons.mp hnd).2
          hagree1 q c hq1
      · rw [writeChars] at hrun
        simp [Puzzle.set_cell, hvpos, Except.bind, Bind.bind] at hrun

/-! ## Placement path arithmetic -/

/-- The position written at index `i` of a placement path. -/
def posAt (start : Position) (dir : Direction) (i : ℕ) : Position :=
  ⟨start.row + (i : ℤ) * dir.row_delta, start.col + (i : ℤ) * dir.col_delta⟩

lemma calculate_positions_length (w : Word) (start : Position) (dir : Direction) :
    (calculate_positions w start dir).length = w.value.length := by
  simp [calculate_positions]

lemma calculate_positions_get (w : Word) (start : Position) (dir : Direction)
    (i : ℕ) (h : i < (calculate_positions w start dir).length) :
    (calculate_positions w start dir).get ⟨i, h⟩ = posAt start dir i := by
  simp [calculate_positions, posAt]

lemma calculate_positions_nodup (w : Word) (start : Position) (dir : Direction)
    (h : ¬(dir.row_delta = 0 ∧ dir.col_delta = 0)) :
    (calculate_positions w start dir).Nodup := by
  refine List.Nodup.map_on ?_ (List.nodup_range _)
  intro i _ j _ hij
  have hr : (i : ℤ) * dir.row_delta = (j : ℤ) * dir.row_delta := by
    have := congrArg Position.row hij; simpa using this
  have hc : (i : ℤ) * dir.col_delta = (j : ℤ) * dir.col_delta := by
    have := congrArg Position.col hij; simpa using this
  rcases not_and_or.mp h with hd | hd
  · have : (i : ℤ) = (j : ℤ) := mul_right_cancel₀ hd hr
    exact_mod_cast this
  · have : (i : ℤ) = (j : ℤ) := mul_right_cancel₀ hd hc
    exact_mod_cast this

/-- Characterization of `can_place_word`: true exactly when every index lands
in bounds on a compatible cell. -/
lemma can_place_word_iff (p : Puzzle) (w : Word) (start : Position) (dir : Direction) :
    p.can_place_word w start dir = true ↔
      ∀ i < w.value.length,
        p.is_valid_position (posAt start dir i) = true ∧
          (p.grid (posAt start dir i) = none ∨
            p.grid (posAt start dir i) = some (w.charAt i)) := by
  unfold Puzzle.can_place_word
  rw [List.all_eq_true]
  constructor
  · intro h i hi
    have := h i (List.mem_range.mpr hi)
    simp only [Bool.and_eq_true] at this
    refine ⟨this.1, ?_⟩
    rcases hcell : p.grid (posAt start dir i) with _ | c
    · exact Or.inl rfl
    · right
      have h2 := this.2
      rw [show (⟨start.row + (i : ℤ) * dir.row_delta, start.col + (i : ℤ) * dir.col_delta⟩ : Position) = posAt start dir i from rfl] at h2
      rw [hcell] at h2
      simp only [decide_eq_true_eq] at h2
      rw [h2]
  · intro h i hi
    have hi' := List.mem_range.mp hi
    obtain ⟨hv, hcell⟩ := h i hi'
    simp only [Bool.and_eq_true]
    refine ⟨hv, ?_⟩
    rw [show (⟨start.row + (i : ℤ) * dir.row_delta, start.col + (i : ℤ) * dir.col_delta⟩ : Position) = posAt start dir i from rfl]
    rcases hcell with hc | hc
    · rw [hc]
    · rw [hc]; simp

/-! ## Direction classification and balancer facts -/

lemma directions_delta_ne_zero {d : Direction} (h : d ∈ Directions.all) :
    ¬(d.row_delta = 0 ∧ d.col_delta = 0) := by
  fin_cases h <;> decide

/-- Among the eight catalogued directions, the balancer's `else` branch (not
horizontal, not vertical) coincides with the diagonal name test. -/
lemma directions_else_iff_diagonal {d : Direction} (h : d ∈ Directions.all) :
    (d.is_horizontal = false ∧ d.is_vertical = false) ↔ d.is_diagonal = true := by
  fin_cases h <;> decide

/-- Normal form of `get_priority_directions`: the four cases of the source,
with the category lists expanded. -/
lemma get_priority_directions_eq (b : DirectionBalancer) (i : ℕ) :
    b.get_priority_directions i =
      if b.diagonal_count < b.total_words / 3 then
        Directions.diagonal ++ Directions.horizontal ++ Directions.vertical
      else if b.horizontal_count < b.total_words / 3 then
        Directions.horizontal ++ Directions.diagonal ++ Directions.vertical
      else if b.vertical_count < b.total_words / 3 then
        Directions.vertical ++ Directions.diagonal ++ Directions.horizontal
      else if i % 3 = 0 then
        Directions.horizontal ++ (Directions.vertical ++ Directions.diagonal)
      else if i % 3 = 1 then
        Directions.vertical ++ (Directions.horizontal ++ Directions.diagonal)
      else
        Directions.diagonal ++ (Directions.horizontal ++ Directions.vertical) := by
  unfold DirectionBalancer.get_priority_directions
  by_cases h1 : b.diagonal_count < b.total_words / 3
  · simp only [if_pos h1]
  simp only [if_neg h1]
  by_cases h2 : b.horizontal_count < b.total_words / 3
  · simp only [if_pos h2]
  simp only [if_neg h2]
  by_cases h3 : b.vertical_count < b.total_words / 3
  · simp only [if_pos h3]
  simp only [if_neg h3]
  have hm : i % 3 = 0 ∨ i % 3 = 1 ∨ i % 3 = 2 := by omega
  rcases hm with h | h | h <;> norm_num [h] <;> rfl

lemma get_priority_directions_subset (b : DirectionBalancer) (i : ℕ) :
    ∀ d ∈ b.get_priority_directions i, d ∈ Directions.all := by
  intro d hd
  rw [get_priority_directions_eq] at hd
  split_ifs at hd <;>
    simp only [Directions.all, Directions.horizontal, Directions.vertical,
      Directions.diagonal, List.mem_append, List.mem_cons, List.not_mem_nil,
      or_false] at hd ⊢ <;> tauto

/-- `increment` for an arbitrary direction: the `else` branch is taken
exactly when the name is neither horizontal nor vertical. -/
lemma increment_spec (b : DirectionBalancer) (d : Direction) :
    (b.increment d).total_words = b.total_words ∧
      (b.increment d).diagonal_count =
        (if d.is_horizontal = false ∧ d.is_vertical = false then
          b.diagonal_count + 1 else b.diagonal_count) := by
  unfold DirectionBalancer.increment
  by_cases h1 : d.is_horizontal = true
  · simp [h1]
  · have h1' : d.is_horizontal = false := by simpa using h1
    by_cases h2 : d.is_vertical = true
    · simp [h1', h2]
    · have h2' : d.is_vertical = false := by simpa using h2
      simp [h1', h2']

lemma oneFifth_eq : oneFifth = 1/5 := by
  have h1 : oneFifth = Rat.divInt 1 (5 : ℤ) := Rat.mk'_eq_divInt
  rw [h1, Rat.divInt_eq_div]
  norm_num

/-- The cross-multiplied gate agrees with the rational-number inequality of
the source, for every threshold. -/
lemma gate_iff_rat (b : DirectionBalancer) (minp : ℚ) :
    b.has_sufficient_diagonal_coverage minp = true ↔
      (b.total_words : ℚ) * minp ≤ (b.diagonal_count : ℚ) := by
  unfold DirectionBalancer.has_sufficient_diagonal_coverage
  rw [decide_eq_true_eq]
  have hden : (0 : ℚ) < (minp.den : ℚ) := by exact_mod_cast minp.den_pos
  have hrepr : (minp.num : ℚ) / (minp.den : ℚ) = minp := Rat.num_div_den minp
  constructor
  · intro h
    have h' : ((b.total_words : ℤ) * minp.num : ℚ) ≤
        ((b.diagonal_count : ℤ) * (minp.den : ℤ) : ℚ) := by exact_mod_cast h
    push_cast at h'
    rw [← hrepr, mul_div_assoc']
    rw [div_le_iff₀ hden]
    linarith
  · intro h
    rw [← hrepr, mul_div_assoc', div_le_iff₀ hden] at h
    have h' : ((b.total_words : ℚ)) * minp.num ≤ (b.diagonal_count : ℚ) * minp.den := by
      linarith
    exact_mod_cast h'

lemma gate_iff_mul (b : DirectionBalancer) :
    b.has_sufficient_diagonal_coverage = true ↔
      b.total_words ≤ 5 * b.diagonal_count := by
  unfold DirectionBalancer.has_sufficient_diagonal_coverage
  rw [decide_eq_true_eq]
  show (b.total_words : ℤ) * 1 ≤ (b.diagonal_count : ℤ) * ((5 : ℕ) : ℤ) ↔ _
  omega

/-- The acceptance gate in exact arithmetic: diagonal share of at least a
fifth, i.e. at least the ceiling of a fifth of the word count. -/
lemma gate_iff_ceil (b : DirectionBalancer) :
    b.has_sufficient_diagonal_coverage = true ↔
      ⌈(b.total_words : ℚ) * (1/5)⌉₊ ≤ b.diagonal_count := by
  rw [gate_iff_mul, Nat.ceil_le]
  rw [show ((b.total_words : ℚ)) * (1/5) = (b.total_words : ℚ) / 5 by ring]
  rw [div_le_iff₀ (by norm_num : (0:ℚ) < 5)]
  constructor
  · intro h
    have h1 : b.total_words ≤ b.diagonal_count * 5 := by omega
    exact_mod_cast h1
  · intro h
    have h1 : b.total_words ≤ b.diagonal_count * 5 := by exact_mod_cast h
    omega

/-! ## add_placement lemmas -/

lemma add_placement_of_valid (p : Puzzle) (pl : WordPlacement)
    (hv : ∀ pos ∈ pl.positions, p.is_valid_position pos = true)
    (hnd : pl.positions.Nodup) :
    ∃ p', p.add_placement pl = .ok p' ∧
      p'.grid_size = p.grid_size ∧ p'.words = p.words ∧
      p'.placements = p.placements ++ [pl] ∧
      (∀ q, q ∉ pl.positions → p'.grid q = p.grid q) ∧
      (∀ j, (hj : j < pl.positions.length) →
        p'.grid (pl.positions.get ⟨j, hj⟩) = some (pl.get_character_at j)) := by
  obtain ⟨pw, hrun, hsz, hw, hpl, hframe, hwrites⟩ :=
    writeChars_spec pl pl.positions p 0 hv hnd
  refine ⟨{ pw with placements := pw.placements ++ [pl] }, ?_, hsz, hw, by rw [hpl], hframe, ?_⟩
  · unfold Puzzle.add_placement
    rw [hrun]
    rfl
  · intro j hj
    simpa using hwrites j hj

lemma add_placement_spec (p : Puzzle) (w : Word) (start : Position) (dir : Direction)
    (hcan : p.can_place_word w start dir = true)
    (hnd : (calculate_positions w start dir).Nodup) :
    ∃ p', p.add_placement (.make w start dir) = .ok p' ∧
      p'.grid_size = p.grid_size ∧ p'.words = p.words ∧
      p'.placements = p.placements ++ [WordPlacement.make w start dir] ∧
      (∀ q c, p.grid q = some c → p'.grid q = some c) ∧
      (∀ i < w.value.length, p'.grid (posAt start dir i) = some (w.charAt i)) ∧
      (∀ q, q ∉ (WordPlacement.make w start dir).positions → p'.grid q = p.grid q) := by
  have hccw := (can_place_word_iff p w start dir).mp hcan
  have hv : ∀ pos ∈ (WordPlacement.make w start dir).positions,
      p.is_valid_position pos = true := by
    intro pos hpos
    simp only [WordPlacement.make, calculate_positions, List.mem_map, List.mem_range] at hpos
    obtain ⟨i, hi, rfl⟩ := hpos
    exact (hccw i hi).1
  obtain ⟨p', hrun, hsz, hw, hpl, hframe, hwrites⟩ :=
    add_placement_of_valid p (.make w start dir) hv hnd
  refine ⟨p', hrun, hsz, hw, hpl, ?_, ?_, hframe⟩
  · -- occupied cells are preserved: write chars agree with existing content
    intro q c hq
    -- reconstruct via writeChars_preserves
    obtain ⟨pw, hwrun, _, _, hpwpl, _, _⟩ :=
      writeChars_spec (WordPlacement.make w start dir) (WordPlacement.make w start dir).positions p 0 hv hnd
    have hagree : ∀ j, (hj : j < (WordPlacement.make w start dir).positions.length) →
        p.grid ((WordPlacement.make w start dir).positions.get ⟨j, hj⟩) = none ∨
          p.grid ((WordPlacement.make w start dir).positions.get ⟨j, hj⟩) =
            some ((WordPlacement.make w start dir).get_character_at (0 + j)) := by
      intro j hj
      have hjlen : j < w.value.length := by
        have := hj
        simpa [WordPlacement.make, calculate_positions_length] using this
      have hget : (WordPlacement.make w start dir).positions.get ⟨j, hj⟩ = posAt start dir j :=
        calculate_positions_get w start dir j (by simpa [WordPlacement.make] using hj)
      rw [hget]
      have := (hccw j hjlen).2
      simpa [WordPlacement.make, WordPlacement.get_character_at, Nat.zero_add] using this
    have hpres := writeChars_preserves (WordPlacement.make w start dir)
      (WordPlacement.make w start dir).positions p pw 0 hwrun hnd hagree q c hq
    -- p' has the same grid as pw
    unfold Puzzle.add_placement at hrun
    rw [hwrun] at hrun
    simp only [Except.bind, Bind.bind, Except.ok.injEq] at hrun
    have : p'.grid = pw.grid := by rw [← hrun]
    rw [this]
    exact hpres
  · intro i hi
    have hj : i < (WordPlacement.make w start dir).positions.length := by
      simpa [WordPlacement.make, calculate_positions_length] using hi
    have hget : (WordPlacement.make w start dir).positions.get ⟨i, hj⟩ = posAt start dir i :=
      calculate_positions_get w start dir i (by simpa [WordPlacement.make] using hj)
    have := hwrites i hj
    rw [hget] at this
    simpa [WordPlacement.make, WordPlacement.get_character_at, Word.charAt] using this

/-! ## Probing lemmas: scanPositions and tryDirections -/

lemma writeChars_ok (pl : WordPlacement) :
    ∀ (l : List Position) (p : Puzzle) (i : ℕ),
      (∀ pos ∈ l, p.is_valid_position pos = true) →
      ∃ p', writeChars p pl i l = .ok p' ∧ p'.grid_size = p.grid_size ∧
        p'.words = p.words ∧ p'.placements = p.placements
  | [], p, i, _ => ⟨p, by simp [writeChars], rfl, rfl, rfl⟩
  | pos :: rest, p, i, hv => by
      have hvpos : p.is_valid_position pos = true := hv pos (by simp)
      set p1 : Puzzle := { p with grid := fun q => if q = pos then some (pl.get_character_at i) else p.grid q } with hp1
      have hv1 : ∀ q ∈ rest, p1.is_valid_position q = true := by
        intro q hq
        have := hv q (by simp [hq])
        simpa [hp1, Puzzle.is_valid_position] using this
      obtain ⟨p', hrun, hsz, hw, hplc⟩ := writeChars_ok pl rest p1 (i + 1) hv1
      refine ⟨p', ?_, by simpa [hp1] using hsz, by simpa [hp1] using hw,
        by simpa [hp1] using hplc⟩
      simp only [writeChars, set_cell_ok _ hvpos, Except.bind, Bind.bind]
      exact hrun

lemma add_placement_ok_of_can_place (p : Puzzle) (w : Word) (start : Position)
    (dir : Direction) (hcan : p.can_place_word w start dir = true) :
    ∃ p', p.add_placement (.make w start dir) = .ok p' := by
  have hccw := (can_place_word_iff p w start dir).mp hcan
  have hv : ∀ pos ∈ (WordPlacement.make w start dir).positions,
      p.is_valid_position pos = true := by
    intro pos hpos
    simp only [WordPlacement.make, calculate_positions, List.mem_map, List.mem_range] at hpos
    obtain ⟨i, hi, rfl⟩ := hpos
    exact (hccw i hi).1
  obtain ⟨pw, hrun, _, _, _⟩ := writeChars_ok (.make w start dir) (WordPlacement.make w start dir).positions p 0 hv
  refine ⟨{ pw with placements := pw.placements ++ [WordPlacement.make w start dir] }, ?_⟩
  unfold Puzzle.add_placement
  rw [hrun]
  rfl

lemma scanPositions_ok (p : Puzzle) (w : Word) (d : Direction) :
    ∀ l, ∃ r, scanPositions p w d l = .ok r
  | [] => ⟨none, by simp [scanPositions]⟩
  | pos :: rest => by
      by_cases hc : p.can_place_word w pos d = true
      · obtain ⟨p', hadd⟩ := add_placement_ok_of_can_place p w pos d hc
        exact ⟨some p', by simp [scanPositions, hc, hadd, Except.bind, Bind.bind]⟩
      · obtain ⟨r, hr⟩ := scanPositions_ok p w d rest
        exact ⟨r, by simp [scanPositions, hc, hr]⟩

lemma scanPositions_none_iff (p : Puzzle) (w : Word) (d : Direction) :
    ∀ l, scanPositions p w d l = .ok none ↔
      ∀ pos ∈ l, p.can_place_word w pos d = false
  | [] => by simp [scanPositions]
  | pos :: rest => by
      by_cases hc : p.can_place_word w pos d = true
      · obtain ⟨p', hadd⟩ := add_placement_ok_of_can_place p w pos d hc
        simp [scanPositions, hc, hadd, Except.bind, Bind.bind]
      · have hc' : p.can_place_word w pos d = false := by simpa using hc
        rw [show scanPositions p w d (pos :: rest) = scanPositions p w d rest by
          simp [scanPositions, hc]]
        rw [scanPositions_none_iff p w d rest]
        constructor
        · intro h q hq
          rcases List.mem_cons.mp hq with rfl | hq'
          · exact hc'
          · exact h q hq'
        · intro h q hq
          exact h q (List.mem_cons_of_mem _ hq)

lemma scanPositions_some (p : Puzzle) (w : Word) (d : Direction) :
    ∀ l p', scanPositions p w d l = .ok (some p') →
      ∃ pos ∈ l, p.can_place_word w pos d = true ∧
        p.add_placement (.make w pos d) = .ok p'
  | [], p', h => by simp [scanPositions] at h
  | pos :: rest, p', h => by
      by_cases hc : p.can_place_word w pos d = true
      · obtain ⟨p'', hadd⟩ := add_placement_ok_of_can_place p w pos d hc
        rw [show scanPositions p w d (pos :: rest) = .ok (some p'') by
          simp [scanPositions, hc, hadd, Except.bind, Bind.bind]] at h
        obtain rfl : p'' = p' := by simpa using h
        exact ⟨pos, by simp, hc, hadd⟩
      · rw [show scanPositions p w d (pos :: rest) = scanPositions p w d rest by
          simp [scanPositions, hc]] at h
        obtain ⟨q, hq, hcq, hadd⟩ := scanPositions_some p w d rest p' h
        exact ⟨q, List.mem_cons_of_mem _ hq, hcq, hadd⟩

lemma tryDirections_ok (p : Puzzle) (w : Word) (g : ℕ → ℕ) :
    ∀ (ds : List Direction) (k : ℕ), ∃ r, tryDirections p w g ds k = .ok r
  | [], k => ⟨(none, k), by simp [tryDirections]⟩
  | dir :: rest, k => by
      obtain ⟨r0, hr0⟩ := scanPositions_ok p w dir (shuffleWith g k (get_all_positions p)).1
      match r0, hr0 with
      | some p', hr0 =>
          exact ⟨(some p', (shuffleWith g k (get_all_positions p)).2),
            by simp [tryDirections, hr0, Except.bind, Bind.bind]⟩
      | none, hr0 =>
          obtain ⟨r, hr⟩ := tryDirections_ok p w g rest (shuffleWith g k (get_all_positions p)).2
          exact ⟨r, by simp [tryDirections, hr0, hr, Except.bind, Bind.bind]⟩

lemma tryDirections_some (p : Puzzle) (w : Word) (g : ℕ → ℕ) :
    ∀ (ds : List Direction) (k : ℕ) (p' : Puzzle) (k' : ℕ),
      tryDirections p w g ds k = .ok (some p', k') →
      ∃ ds1 d ds2, ds = ds1 ++ d :: ds2 ∧
        (∀ d' ∈ ds1, ∀ pos ∈ get_all_positions p, p.can_place_word w pos d' = false) ∧
        ∃ pos ∈ get_all_positions p, p.can_place_word w pos d = true ∧
          p.add_placement (.make w pos d) = .ok p'
  | [], k, p', k', h => by simp [tryDirections] at h
  | dir :: rest, k, p', k', h => by
      obtain ⟨r0, hr0⟩ := scanPositions_ok p w dir (shuffleWith g k (get_all_positions p)).1
      match r0, hr0 with
      | some p'', hr0 =>
          rw [show tryDirections p w g (dir :: rest) k =
              .ok (some p'', (shuffleWith g k (get_all_positions p)).2) by
            simp [tryDirections, hr0, Except.bind, Bind.bind]] at h
          obtain ⟨rfl, rfl⟩ : p'' = p' ∧ (shuffleWith g k (get_all_positions p)).2 = k' := by
            simpa using h
          obtain ⟨pos, hpos, hcan, hadd⟩ := scanPositions_some p w dir _ p'' hr0
          exact ⟨[], dir, rest, rfl, by simp,
            pos, (shuffleWith_perm g k (get_all_positions p)).mem_iff.mp hpos, hcan, hadd⟩
      | none, hr0 =>
          rw [show tryDirections p w g (dir :: rest) k =
              tryDirections p w g rest (shuffleWith g k (get_all_positions p)).2 by
            simp [tryDirections, hr0, Except.bind, Bind.bind]] at h
          obtain ⟨ds1, d, ds2, hds, hfail, pos, hpos, hcan, hadd⟩ :=
            tryDirections_some p w g rest _ p' k' h
          have hdirfail : ∀ pos ∈ get_all_positions p, p.can_place_word w pos dir = false := by
            intro q hq
            exact (scanPositions_none_iff p w dir _).mp hr0 q
              ((shuffleWith_perm g k (get_all_positions p)).mem_iff.mpr hq)
          refine ⟨dir :: ds1, d, ds2, by simp [hds], ?_, pos, hpos, hcan, hadd⟩
          intro d' hd'
          rcases List.mem_cons.mp hd' with rfl | hd'
          · exact hdirfail
          · exact hfail d' hd'

/-- Full success characterization of `try_place_word`: the committed
direction is the first in the shuffled candidate order that admits the word
anywhere on the grid. -/
lemma try_place_word_some (p : Puzzle) (w : Word) (directions : List Direction)
    (g : ℕ → ℕ) (k : ℕ) (r : TryResult) (p' : Puzzle)
    (h : try_place_word p w directions g k = .ok r) (hres : r.res = some p') :
    r.dirs = (shuffleWith g k directions).1 ∧
      ∃ ds1 d ds2, r.dirs = ds1 ++ d :: ds2 ∧
        (∀ d' ∈ ds1, ∀ pos ∈ get_all_positions p, p.can_place_word w pos d' = false) ∧
        ∃ pos ∈ get_all_positions p, p.can_place_word w pos d = true ∧
          p.add_placement (.make w pos d) = .ok p' := by
  obtain ⟨rt, hrt⟩ := tryDirections_ok p w g (shuffleWith g k directions).1
    (shuffleWith g k directions).2
  obtain ⟨rt1, rt2⟩ := rt
  rw [show try_place_word p w directions g k = .ok ⟨rt1, (shuffleWith g k directions).1, rt2⟩ by
    simp [try_place_word, hrt, Except.bind, Bind.bind]] at h
  obtain rfl : (⟨rt1, (shuffleWith g k directions).1, rt2⟩ : TryResult) = r := by
    simpa using h
  simp only at hres
  subst hres
  refine ⟨rfl, ?_⟩
  obtain ⟨ds1, d, ds2, hds, hfail, pos, hpos, hcan, hadd⟩ :=
    tryDirections_some p w g (shuffleWith g k directions).1 (shuffleWith g k directions).2
      p' rt2 hrt
  exact ⟨ds1, d, ds2, hds, hfail, pos, hpos, hcan, hadd⟩

/-! ## Coherence invariant of committed placements -/

/-- Bounds check on a position, with the grid size given directly. -/
def posInBounds (gs : ℕ) (pos : Position) : Prop :=
  0 ≤ pos.row ∧ pos.row < (gs : ℤ) ∧ 0 ≤ pos.col ∧ pos.col < (gs : ℤ)

lemma is_valid_position_iff (p : Puzzle) (pos : Position) :
    p.is_valid_position pos = true ↔ posInBounds p.grid_size pos := by
  simp [Puzzle.is_valid_position, posInBounds, and_assoc]

/-- Invariant maintained by the generator: every committed placement has its
derived position path, a catalogued direction, in-bounds cells, and the grid
holds its characters. -/
def Coherent (p : Puzzle) : Prop :=
  ∀ pl ∈ p.placements,
    pl.positions = calculate_positions pl.word pl.start_position pl.direction ∧
    pl.direction ∈ Directions.all ∧
    ∀ i < pl.word.value.length,
      posInBounds p.grid_size (posAt pl.start_position pl.direction i) ∧
      p.grid (posAt pl.start_position pl.direction i) = some (pl.word.charAt i)

lemma coherent_init (gs : ℕ) (ws : List Word) : Coherent (Puzzle.init gs ws) := by
  intro pl hpl
  simp [Puzzle.init] at hpl

lemma coherent_reset (p : Puzzle) : Coherent p.reset := by
  intro pl hpl
  simp [Puzzle.reset] at hpl

lemma coherent_after_add (p p' : Puzzle) (w : Word) (pos : Position) (d : Direction)
    (hd : d ∈ Directions.all)
    (hcan : p.can_place_word w pos d = true)
    (hadd : p.add_placement (.make w pos d) = .ok p')
    (hco : Coherent p) :
    Coherent p' ∧ p'.placements = p.placements ++ [WordPlacement.make w pos d] ∧
      p'.grid_size = p.grid_size ∧ p'.words = p.words ∧
      (∀ q c, p.grid q = some c → p'.grid q = some c) := by
  have hnd : (calculate_positions w pos d).Nodup :=
    calculate_positions_nodup w pos d (directions_delta_ne_zero hd)
  obtain ⟨p'', hrun, hsz, hw, hpl, hpres, hwrites, _⟩ :=
    add_placement_spec p w pos d hcan hnd
  obtain rfl : p'' = p' := by
    rw [hrun] at hadd; simpa using hadd
  have hccw := (can_place_word_iff p w pos d).mp hcan
  refine ⟨?_, hpl, hsz, hw, hpres⟩
  intro pl hmem
  rw [hpl] at hmem
  rcases List.mem_append.mp hmem with hold | hnew
  · obtain ⟨hpos, hdall, hcells⟩ := hco pl hold
    refine ⟨hpos, hdall, ?_⟩
    intro i hi
    obtain ⟨hb, hcell⟩ := hcells i hi
    exact ⟨by rw [hsz]; exact hb, hpres _ _ hcell⟩
  · obtain rfl : pl = WordPlacement.make w pos d := by simpa using hnew
    refine ⟨rfl, hd, ?_⟩
    intro i hi
    have hI := hccw i hi
    constructor
    · rw [hsz]
      exact (is_valid_position_iff p _).mp hI.1
    · exact hwrites i hi

/-! ## Sorting is a permutation -/

lemma insertByLenDesc_perm (w : Word) :
    ∀ ws : List Word, List.Perm (insertByLenDesc w ws) (w :: ws)
  | [] => by simp [insertByLenDesc]
  | x :: xs => by
      unfold insertByLenDesc
      by_cases h : x.value.length < w.value.length
      · rw [if_pos h]
      · rw [if_neg h]
        exact ((insertByLenDesc_perm w xs).cons x).trans (List.Perm.swap w x xs)

lemma sortWordsDesc_perm : ∀ ws : List Word, List.Perm (sortWordsDesc ws) ws
  | [] => by simp [sortWordsDesc]
  | w :: ws => by
      unfold sortWordsDesc
      simp only [List.foldr_cons]
      exact (insertByLenDesc_perm w _).trans ((sortWordsDesc_perm ws).cons w)

/-! ## Filling the empty cells -/

lemma mem_get_all_positions (p : Puzzle) (pos : Position) :
    pos ∈ get_all_positions p ↔ p.is_valid_position pos = true := by
  unfold get_all_positions
  rw [List.mem_flatten]
  constructor
  · rintro ⟨l, hl, hpos⟩
    simp only [List.mem_map, List.mem_range] at hl
    obtain ⟨r, hr, rfl⟩ := hl
    simp only [List.mem_map, List.mem_range] at hpos
    obtain ⟨c, hc, rfl⟩ := hpos
    simp only [Puzzle.is_valid_position]
    refine (by simp; omega)
  · intro hv
    rw [is_valid_position_iff] at hv
    obtain ⟨h1, h2, h3, h4⟩ := hv
    have hrow : ((pos.row.toNat : ℤ)) = pos.row := by omega
    have hcol : ((pos.col.toNat : ℤ)) = pos.col := by omega
    refine ⟨(List.range p.grid_size).map fun (c : ℕ) => (⟨pos.row, (c : ℤ)⟩ : Position), ?_, ?_⟩
    · simp only [List.mem_map, List.mem_range]
      exact ⟨pos.row.toNat, by omega, by simp only [hrow]⟩
    · simp only [List.mem_map, List.mem_range]
      refine ⟨pos.col.toNat, by omega, ?_⟩
      rw [hcol]

lemma fillGo_spec (g : ℕ → ℕ) :
    ∀ (l : List Position) (p : Puzzle) (k : ℕ),
      (∀ pos ∈ l, p.is_valid_position pos = true) →
      ∃ p' k', fillGo g p k l = .ok (p', k') ∧
        p'.grid_size = p.grid_size ∧ p'.words = p.words ∧
        p'.placements = p.placements ∧
        (∀ q c, p.grid q = some c → p'.grid q = some c) ∧
        (∀ pos ∈ l, (p'.grid pos).isSome = true)
  | [], p, k, _ => ⟨p, k, by simp [fillGo], rfl, rfl, rfl, fun _ _ h => h, by simp⟩
  | pos :: rest, p, k, hv => by
      have hvpos : p.is_valid_position pos = true := hv pos (by simp)
      have hget : p.get_cell pos = .ok (p.grid pos) := by simp [Puzzle.get_cell, hvpos]
      rcases hcell : p.grid pos with _ | c
      · -- sentinel cell: written with a random letter
        set p1 : Puzzle := { p with grid := fun q => if q = pos then some (randLetter g k) else p.grid q } with hp1
        have hv1 : ∀ q ∈ rest, p1.is_valid_position q = true := by
          intro q hq
          have := hv q (by simp [hq])
          simpa [hp1, Puzzle.is_valid_position] using this
        obtain ⟨p', k', hrun, hsz, hw, hpl, hpres, hsome⟩ := fillGo_spec g rest p1 (k + 1) hv1
        refine ⟨p', k', ?_, by simpa [hp1] using hsz, by simpa [hp1] using hw,
          by simpa [hp1] using hpl, ?_, ?_⟩
        · rw [show fillGo g p k (pos :: rest) = fillGo g p1 (k + 1) rest by
            simp [fillGo, hget, hcell, set_cell_ok _ hvpos, Except.bind, Bind.bind, hp1]]
          exact hrun
        · intro q c hq
          have hqpos : q ≠ pos := by
            intro h; rw [h, hcell] at hq; cases hq
          exact hpres q c (by simp [hp1, hqpos, hq])
        · intro q hq
          rcases List.mem_cons.mp hq with rfl | hq'
          · have : p1.grid q = some (randLetter g k) := by simp [hp1]
            have := hpres q _ this
            simp [this]
          · exact hsome q hq'
      · -- already written: skip
        obtain ⟨p', k', hrun, hsz, hw, hpl, hpres, hsome⟩ := fillGo_spec g rest p (k) (fun q hq => hv q (by simp [hq]))
        refine ⟨p', k', ?_, hsz, hw, hpl, hpres, ?_⟩
        · rw [show fillGo g p k (pos :: rest) = fillGo g p k rest by
            simp [fillGo, hget, hcell, Except.bind, Bind.bind]]
          exact hrun
        · intro q hq
          rcases List.mem_cons.mp hq with rfl | hq'
          · have := hpres q c hcell
            simp [this]
          · exact hsome q hq'

lemma fill_empty_cells_spec (p : Puzzle) (g : ℕ → ℕ) (k : ℕ) :
    ∃ p' k', fill_empty_cells p g k = .ok (p', k') ∧
      p'.grid_size = p.grid_size ∧ p'.words = p.words ∧
      p'.placements = p.placements ∧
      (∀ q c, p.grid q = some c → p'.grid q = some c) ∧
      (∀ pos, p.is_valid_position pos = true → (p'.grid pos).isSome = true) := by
  obtain ⟨p', k', hrun, hsz, hw, hpl, hpres, hsome⟩ :=
    fillGo_spec g (get_all_positions p) p k
      (fun pos hpos => (mem_get_all_positions p pos).mp hpos)
  exact ⟨p', k', hrun, hsz, hw, hpl, hpres,
    fun pos hv => hsome pos ((mem_get_all_positions p pos).mpr hv)⟩

/-! ## The word-placing loop -/

lemma try_place_word_ok (p : Puzzle) (w : Word) (directions : List Direction)
    (g : ℕ → ℕ) (k : ℕ) :
    ∃ r, try_place_word p w directions g k = .ok r ∧
      r.dirs = (shuffleWith g k directions).1 := by
  obtain ⟨rt, hrt⟩ := tryDirections_ok p w g (shuffleWith g k directions).1
    (shuffleWith g k directions).2
  exact ⟨⟨rt.1, (shuffleWith g k directions).1, rt.2⟩,
    by simp [try_place_word, hrt, Except.bind, Bind.bind], rfl⟩

lemma attemptWords_spec (g : ℕ → ℕ) :
    ∀ (ws : List Word) (p : Puzzle) (b : DirectionBalancer) (i k : ℕ),
      Coherent p →
      ∃ res k', attemptWords g p b i ws k = .ok (res, k') ∧
        ∀ p' b', res = some (p', b') →
          Coherent p' ∧ p'.grid_size = p.grid_size ∧ p'.words = p.words ∧
          b'.total_words = b.total_words ∧
          ∃ new, p'.placements = p.placements ++ new ∧
            new.map (fun pl => pl.word) = ws ∧
            b'.diagonal_count =
              b.diagonal_count + new.countP (fun pl => pl.direction.is_diagonal)
  | [], p, b, i, k, hco => by
      refine ⟨some (p, b), k, by simp [attemptWords], ?_⟩
      rintro p' b' h
      obtain ⟨rfl, rfl⟩ : p = p' ∧ b = b' := by
        constructor <;> [skip; skip] <;> cases h <;> rfl
      exact ⟨hco, rfl, rfl, rfl, [], by simp, rfl, by simp⟩
  | w :: rest, p, b, i, k, hco => by
      obtain ⟨r, hr, _⟩ := try_place_word_ok p w (b.get_priority_directions i) g k
      rcases hres : r.res with _ | p1
      · -- probe failed: the whole attempt fails
        refine ⟨none, r.k, ?_, by rintro p' b' ⟨⟩⟩
        rw [show attemptWords g p b i (w :: rest) k = .ok (none, r.k) by
          simp [attemptWords, hr, hres, Except.bind, Bind.bind]]
      · -- probe succeeded: p1 extends p by one placement of w
        obtain ⟨hdirs, ds1, d, ds2, hds, hfail, pos, hpos, hcan, hadd⟩ :=
          try_place_word_some p w (b.get_priority_directions i) g k r p1 hr hres
        have hdmem : d ∈ Directions.all := by
          have : d ∈ r.dirs := by rw [hds]; simp
          rw [hdirs] at this
          exact get_priority_directions_subset b i d
            ((shuffleWith_perm g k _).mem_iff.mp this)
        obtain ⟨hco1, hpl1, hsz1, hw1, _⟩ :=
          coherent_after_add p p1 w pos d hdmem hcan hadd hco
        have hlast : p1.placements.getLast? = some (WordPlacement.make w pos d) := by
          rw [hpl1]
          exact List.getLast?_concat _
        obtain ⟨res, k', hrec, hprops⟩ :=
          attemptWords_spec g rest p1 (b.increment d) (i + 1) r.k hco1
        refine ⟨res, k', ?_, ?_⟩
        · rw [show attemptWords g p b i (w :: rest) k =
              attemptWords g p1 (b.increment (WordPlacement.make w pos d).direction)
                (i + 1) rest r.k by
            simp [attemptWords, hr, hres, hlast, Except.bind, Bind.bind]]
          exact hrec
        · intro p' b' hsome
          obtain ⟨hco', hsz', hw', htot', new, hpl', hmap', hdiag'⟩ := hprops p' b' hsome
          obtain ⟨hinc_tot, hinc_diag⟩ := increment_spec b d
          refine ⟨hco', hsz'.trans hsz1, hw'.trans hw1, htot'.trans hinc_tot,
            WordPlacement.make w pos d :: new, ?_, ?_, ?_⟩
          · rw [hpl', hpl1]
            simp
          · simp [hmap', WordPlacement.make]
          · rw [hdiag', hinc_diag]
            rw [List.countP_cons]
            by_cases hdg : d.is_diagonal = true
            · have h1 : d.is_horizontal = false ∧ d.is_vertical = false :=
                (directions_else_iff_diagonal hdmem).mpr hdg
              rw [if_pos h1]
              simp [WordPlacement.make, hdg]
              omega
            · have h1 : ¬(d.is_horizontal = false ∧ d.is_vertical = false) := by
                intro hcon
                exact hdg ((directions_else_iff_diagonal hdmem).mp hcon)
              rw [if_neg h1]
              have hdg' : d.is_diagonal = false := by simpa using hdg
              simp [WordPlacement.make, hdg']

lemma attempt_placement_spec (p : Puzzle) (ws : List Word) (g : ℕ → ℕ) (k : ℕ)
    (hco : Coherent p) :
    ∃ res k', attempt_placement p ws g k = .ok (res, k') ∧
      ∀ p', res = some p' →
        Coherent p' ∧ p'.grid_size = p.grid_size ∧ p'.words = p.words ∧
        ∃ new, p'.placements = p.placements ++ new ∧
          new.map (fun pl => pl.word) = ws ∧
          ws.length ≤ 5 * new.countP (fun pl => pl.direction.is_diagonal) := by
  obtain ⟨res, k', hrun, hprops⟩ :=
    attemptWords_spec g ws p (DirectionBalancer.init ws.length) 0 k hco
  rcases res with _ | ⟨p1, b1⟩
  · refine ⟨none, k', ?_, by rintro p' ⟨⟩⟩
    rw [show attempt_placement p ws g k = .ok (none, k') by
      simp [attempt_placement, hrun, Except.bind, Bind.bind]]
  · obtain ⟨hco1, hsz1, hw1, htot1, new, hpl1, hmap1, hdiag1⟩ := hprops p1 b1 rfl
    by_cases hgate : b1.has_sufficient_diagonal_coverage = true
    · refine ⟨some p1, k', ?_, ?_⟩
      · rw [show attempt_placement p ws g k = .ok (some p1, k') by
          simp [attempt_placement, hrun, hgate, Except.bind, Bind.bind, -one_div]]
      · rintro p' h
        obtain rfl : p1 = p' := by cases h; rfl
        refine ⟨hco1, hsz1, hw1, new, hpl1, hmap1, ?_⟩
        have := (gate_iff_mul b1).mp hgate
        rw [htot1, hdiag1] at this
        simpa [DirectionBalancer.init] using this
    · have hgate' : b1.has_sufficient_diagonal_coverage = false := by simpa using hgate
      refine ⟨none, k', ?_, by rintro p' ⟨⟩⟩
      rw [show attempt_placement p ws g k = .ok (none, k') by
        simp [attempt_placement, hrun, hgate', Except.bind, Bind.bind, -one_div]]

lemma generateLoop_spec (g : ℕ → ℕ) (sorted_words : List Word) (p0 : Puzzle) :
    ∀ (fuel k used : ℕ),
      ∃ r, generateLoop g sorted_words p0 fuel k used = .ok r ∧
        r.attempts ≤ used + fuel ∧
        (r.success = false → r.puzzle = p0 ∧ r.attempts = used + fuel) ∧
        (r.success = true →
          Coherent r.puzzle ∧ r.puzzle.grid_size = p0.grid_size ∧
          r.puzzle.words = p0.words ∧
          (∀ pos, posInBounds p0.grid_size pos → (r.puzzle.grid pos).isSome = true) ∧
          ∃ ws, List.Perm ws sorted_words ∧
            r.puzzle.placements.map (fun pl => pl.word) = ws ∧
            ws.length ≤ 5 * r.puzzle.placements.countP (fun pl => pl.direction.is_diagonal))
  | 0, k, used =>
      ⟨⟨false, p0, used, k⟩, by simp [generateLoop], by simp, fun _ => ⟨rfl, by simp⟩,
        by simp⟩
  | fuel + 1, k, used => by
      obtain ⟨res, k', hrun, hprops⟩ :=
        attempt_placement_spec p0.reset (shuffleWith g k sorted_words).1 g
          (shuffleWith g k sorted_words).2 (coherent_reset p0)
      rcases res with _ | p1
      · -- failed attempt: loop on
        obtain ⟨r, hrec, hatt, hfailp, hsucc⟩ := generateLoop_spec g sorted_words p0 fuel k' (used + 1)
        refine ⟨r, ?_, by omega, ?_, hsucc⟩
        · rw [show generateLoop g sorted_words p0 (fuel + 1) k used =
              generateLoop g sorted_words p0 fuel k' (used + 1) by
            simp [generateLoop, hrun, Except.bind, Bind.bind]]
          exact hrec
        · intro hf
          obtain ⟨h1, h2⟩ := hfailp hf
          exact ⟨h1, by omega⟩
      · -- accepted: fill and stop
        obtain ⟨hco1, hsz1, hw1, new, hpl1, hmap1, hlen1⟩ := hprops p1 rfl
        obtain ⟨p2, k2, hfill, hsz2, hw2, hpl2, hpres2, hsome2⟩ := fill_empty_cells_spec p1 g k'
        refine ⟨⟨true, p2, used + 1, k2⟩, ?_, by show used + 1 ≤ used + (fuel + 1); omega, by simp, ?_⟩
        · rw [show generateLoop g sorted_words p0 (fuel + 1) k used =
              .ok ⟨true, p2, used + 1, k2⟩ by
            simp [generateLoop, hrun, hfill, Except.bind, Bind.bind]]
        · intro _
          have hszb : p2.grid_size = p0.grid_size := by
            rw [hsz2, hsz1]; rfl
          have hwb : p2.words = p0.words := by
            rw [hw2, hw1]; rfl
          refine ⟨?_, hszb, hwb, ?_, ?_⟩
          · -- coherence survives the fill
            intro pl hpl
            rw [hpl2] at hpl
            obtain ⟨hposeq, hdall, hcells⟩ := hco1 pl hpl
            refine ⟨hposeq, hdall, ?_⟩
            intro i hi
            obtain ⟨hb, hcell⟩ := hcells i hi
            exact ⟨by rw [hsz2]; exact hb, hpres2 _ _ hcell⟩
          · intro pos hb
            apply hsome2
            rw [is_valid_position_iff]
            rw [hsz1]
            exact hb
          · refine ⟨(shuffleWith g k sorted_words).1, shuffleWith_perm g k sorted_words, ?_, ?_⟩
            · rw [hpl2, hpl1]
              simpa [Puzzle.reset] using hmap1
            · rw [hpl2, hpl1]
              simpa [Puzzle.reset] using hlen1

lemma generate_spec (max_attempts : ℕ) (p : Puzzle) (g : ℕ → ℕ) (k : ℕ) :
    ∃ r, generate max_attempts p g k = .ok r ∧
      r.attempts ≤ max_attempts ∧
      (r.success = false → r.puzzle = p ∧ r.attempts = max_attempts) ∧
      (r.success = true →
        Coherent r.puzzle ∧ r.puzzle.grid_size = p.grid_size ∧
        r.puzzle.words = p.words ∧
        (∀ pos, posInBounds p.grid_size pos → (r.puzzle.grid pos).isSome = true) ∧
        List.Perm (r.puzzle.placements.map fun pl => pl.word) p.words ∧
        p.words.length ≤ 5 * r.puzzle.placements.countP fun pl => pl.direction.is_diagonal) := by
  obtain ⟨r, hrun, hatt, hfail, hsucc⟩ :=
    generateLoop_spec g (sortWordsDesc p.words) p max_attempts k 0
  refine ⟨r, hrun, by omega, fun hf => ⟨(hfail hf).1, by have := (hfail hf).2; omega⟩, ?_⟩
  intro hs
  obtain ⟨hco, hsz, hw, hfull, ws, hperm, hmap, hlen⟩ := hsucc hs
  have hperm2 : List.Perm (r.puzzle.placements.map fun pl => pl.word) p.words := by
    rw [hmap]
    exact hperm.trans (sortWordsDesc_perm p.words)
  refine ⟨hco, hsz, hw, hfull, hperm2, ?_⟩
  have hlen2 : ws.length = p.words.length :=
    (hperm.trans (sortWordsDesc_perm p.words)).length_eq
  omega

/-! ## The multi-puzzle loop -/

lemma genLoop_spec (gen : ℕ → Puzzle → Bool × Puzzle) (gs : ℕ) (words : List Word)
    (count : ℕ) :
    ∀ (fuel attempt : ℕ) (acc : List Puzzle) (calls : ℕ),
      (genLoop gen gs words count fuel attempt acc calls).2 ≤ calls + fuel ∧
      (acc.length ≤ count → (genLoop gen gs words count fuel attempt acc calls).1.length ≤ count) ∧
      ((genLoop gen gs words count fuel attempt acc calls).1.length < count →
        (genLoop gen gs words count fuel attempt acc calls).2 = calls + fuel) ∧
      (∀ q ∈ (genLoop gen gs words count fuel attempt acc calls).1,
        q ∈ acc ∨ ∃ i, gen i (Puzzle.init gs words) = (true, q))
  | 0, attempt, acc, calls => by
      refine ⟨by simp [genLoop], fun h => by simpa [genLoop] using h, ?_, ?_⟩
      · intro _; simp [genLoop]
      · intro q hq
        exact Or.inl (by simpa [genLoop] using hq)
  | fuel + 1, attempt, acc, calls => by
      by_cases hstop : acc.length ≥ count
      · rw [show genLoop gen gs words count (fuel + 1) attempt acc calls = (acc, calls) by
          simp [genLoop, hstop]]
        refine ⟨by omega, fun h => h, fun hltc => by simp at hltc; omega, fun q hq => Or.inl hq⟩
      · have hlt : acc.length < count := by omega
        set acc' := if (gen attempt (Puzzle.init gs words)).1 then
            acc ++ [(gen attempt (Puzzle.init gs words)).2] else acc with hacc'
        have hrw : genLoop gen gs words count (fuel + 1) attempt acc calls =
            genLoop gen gs words count fuel (attempt + 1) acc' (calls + 1) := by
          rw [hacc']
          simp [genLoop, hstop]
        obtain ⟨ha, hb, hc, hd⟩ := genLoop_spec gen gs words count fuel (attempt + 1) acc' (calls + 1)
        have hacclen : acc'.length ≤ count := by
          rw [hacc']
          split_ifs
          · simp
            omega
          · omega
        refine ⟨?_, ?_, ?_, ?_⟩
        · rw [hrw]; omega
        · intro _; rw [hrw]; exact hb hacclen
        · rw [hrw]; intro h; have := hc h; omega
        · rw [hrw]
          intro q hq
          rcases hd q hq with hin | hgen
          · rw [hacc'] at hin
            by_cases hg : (gen attempt (Puzzle.init gs words)).1 = true
            · rw [if_pos hg] at hin
              rcases List.mem_append.mp hin with h1 | h2
              · exact Or.inl h1
              · right
                refine ⟨attempt, ?_⟩
                have : q = (gen attempt (Puzzle.init gs words)).2 := by simpa using h2
                rw [this, ← hg]
            · rw [if_neg hg] at hin
              exact Or.inl hin
          · exact Or.inr hgen

lemma generate_puzzles_spec (gen : ℕ → Puzzle → Bool × Puzzle) (gs : ℕ)
    (words : List Word) (count : ℕ) :
    (generate_puzzles gen gs words count).2 ≤ count * 10 ∧
    (generate_puzzles gen gs words count).1.length ≤ count ∧
    ((generate_puzzles gen gs words count).1.length < count →
      (generate_puzzles gen gs words count).2 = count * 10) ∧
    (∀ q ∈ (generate_puzzles gen gs words count).1,
      ∃ i, gen i (Puzzle.init gs words) = (true, q)) := by
  obtain ⟨ha, hb, hc, hd⟩ := genLoop_spec gen gs words count (count * 10) 0 [] 0
  refine ⟨by simpa [generate_puzzles] using ha, by simpa [generate_puzzles] using hb (by simp), ?_, ?_⟩
  · intro h
    have := hc (by simpa [generate_puzzles] using h)
    simpa [generate_puzzles] using this
  · intro q hq
    rcases hd q (by simpa [generate_puzzles] using hq) with hin | hgen
    · simp at hin
    · exact hgen

lemma add_placement_ok_append (p : Puzzle) (pl : WordPlacement)
    (hv : ∀ pos ∈ pl.positions, p.is_valid_position pos = true) :
    ∃ p', p.add_placement pl = .ok p' ∧ p'.grid_size = p.grid_size ∧
      p'.words = p.words ∧ p'.placements = p.placements ++ [pl] := by
  obtain ⟨pw, hrun, hsz, hw, hplc⟩ := writeChars_ok pl pl.positions p 0 hv
  refine ⟨{ pw with placements := pw.placements ++ [pl] }, ?_, hsz, hw, by rw [hplc]⟩
  unfold Puzzle.add_placement
  rw [hrun]
  rfl

/-! ## Concrete runs used by the counterexamples and witnesses -/

/-- A constant random-draw stream: every draw is 4. -/
def constFour : ℕ → ℕ := fun _ => 4

def catWord : Word := ⟨"CAT"⟩

def abWord : Word := ⟨"AB"⟩

/-- A legal input: a 5×5 puzzle whose word list repeats the word CAT. -/
def twoCats : Puzzle := Puzzle.init 5 [catWord, catWord]

/-- A 5×5 puzzle with three words, so the balancer's target per category is
one and diagonals are prioritized first. -/
def threeCats : Puzzle := Puzzle.init 5 [catWord, catWord, catWord]

/-- Decidable view of a `generate` outcome: the returned bool and the placed
words. -/
def genView (e : Except String GenResult) : Option (Bool × List String) :=
  match e with
  | .ok r => some (r.success, r.puzzle.placements.map fun pl => pl.word.value)
  | .error _ => none

/-- Decidable view of a `try_place_word` outcome: the committed directions on
success and the final (shuffled) candidate list, both by name. -/
def tryView (e : Except String TryResult) : Option (Option (List String) × List String) :=
  match e with
  | .ok r => some (r.res.map (fun p => p.placements.map fun pl => pl.direction.name),
      r.dirs.map fun d => d.name)
  | .error _ => none

/-- Decidable view of an `add_placement` outcome: `none` models a raised
exception. -/
def addView (e : Except String Puzzle) : Option (List String) :=
  match e with
  | .ok p => some (p.placements.map fun pl => pl.word.value)
  | .error _ => none

/-! ## Claim theorems -/

/-- C3: `can_place_word` returns true if and only if every index of the word
lands on a position inside `[0, grid_size)` in both coordinates whose cell
is either the empty sentinel or already holds the word's character at that
index. -/
theorem C3_can_place_word_characterization :
    ∀ (p : Puzzle) (w : Word) (start : Position) (dir : Direction),
      p.can_place_word w start dir = true ↔
        ∀ i < w.value.length,
          (0 ≤ start.row + (i : ℤ) * dir.row_delta ∧
           start.row + (i : ℤ) * dir.row_delta < (p.grid_size : ℤ) ∧
           0 ≤ start.col + (i : ℤ) * dir.col_delta ∧
           start.col + (i : ℤ) * dir.col_delta < (p.grid_size : ℤ)) ∧
          (p.grid (posAt start dir i) = none ∨
           p.grid (posAt start dir i) = some (w.charAt i)) := by
  intro p w start dir
  rw [can_place_word_iff]
  constructor
  · intro h i hi
    obtain ⟨hv, hc⟩ := h i hi
    rw [is_valid_position_iff] at hv
    exact ⟨hv, hc⟩
  · intro h i hi
    obtain ⟨hb, hc⟩ := h i hi
    exact ⟨(is_valid_position_iff p _).mpr hb, hc⟩

/-- The priority ordering exactly as the specification states it, written as
an independent function of the four counters and the word index, for
comparison with the source translation. -/
def prioritySpec (total horizontal_count vertical_count diagonal_count word_index : ℕ) :
    List Direction :=
  let target := total / 3
  if diagonal_count < target then
    Directions.diagonal ++ Directions.horizontal ++ Directions.vertical
  else if horizontal_count < target then
    Directions.horizontal ++ Directions.diagonal ++ Directions.vertical
  else if vertical_count < target then
    Directions.vertical ++ Directions.diagonal ++ Directions.horizontal
  else if word_index % 3 = 0 then
    Directions.horizontal ++ Directions.vertical ++ Directions.diagonal
  else if word_index % 3 = 1 then
    Directions.vertical ++ Directions.horizontal ++ Directions.diagonal
  else
    Directions.diagonal ++ Directions.horizontal ++ Directions.vertical

/-- C6: `get_priority_directions` returns precisely the case analysis of the
specification: the first underrepresented category (diagonal, then
horizontal, then vertical) leads with the stated followers, and otherwise the
round-robin ordering led by `word_index mod 3` with the remaining two
categories in a fixed order. -/
theorem C6_priority_directions_cases :
    ∀ (b : DirectionBalancer) (word_index : ℕ),
      b.get_priority_directions word_index =
        prioritySpec b.total_words b.horizontal_count b.vertical_count
          b.diagonal_count word_index := by
  intro b i
  rw [get_priority_directions_eq]
  unfold prioritySpec
  split_ifs <;> simp [List.append_assoc, *]

/-- C10: `try_place_word` never raises, and the caller's directions list
(shuffled in place by the callee, surfaced here as the `dirs` field of the
result) afterwards holds exactly the same directions, possibly reordered:
no element is added or removed. -/
theorem C10_directions_shuffled_in_place :
    ∀ (p : Puzzle) (w : Word) (directions : List Direction) (g : ℕ → ℕ) (k : ℕ),
      ∃ r, try_place_word p w directions g k = .ok r ∧
        List.Perm r.dirs directions ∧ r.dirs.length = directions.length := by
  intro p w directions g k
  obtain ⟨r, hr, hdirs⟩ := try_place_word_ok p w directions g k
  have hperm : List.Perm r.dirs directions := by
    rw [hdirs]; exact shuffleWith_perm g k directions
  exact ⟨r, hr, hperm, hperm.length_eq⟩

/-- C5: the multi-puzzle loop makes at most `count * 10` generation attempts,
never collects more than `count` puzzles, returns the partial list exactly
when the whole budget was spent, stops early once `count` puzzles exist, and
every returned puzzle comes from a successful generation attempt on a fresh
puzzle. -/
theorem C5_orchestrator_budget :
    ∀ (gen : ℕ → Puzzle → Bool × Puzzle) (grid_size : ℕ) (words : List Word) (count : ℕ),
      (generate_puzzles gen grid_size words count).2 ≤ count * 10 ∧
      (generate_puzzles gen grid_size words count).1.length ≤ count ∧
      ((generate_puzzles gen grid_size words count).1.length < count →
        (generate_puzzles gen grid_size words count).2 = count * 10) ∧
      ∀ q ∈ (generate_puzzles gen grid_size words count).1,
        ∃ i, gen i (Puzzle.init grid_size words) = (true, q) := by
  intro gen gs words count
  exact generate_puzzles_spec gen gs words count

/-- C4: `generate` performs at most `max_attempts` attempts and never raises;
on acceptance it returns true with every in-bounds cell filled (no sentinel
remains) and with one placement per word of the puzzle; when it returns
false, the full attempt budget was spent. -/
theorem C4_generate_attempts_fill_no_exception :
    ∀ (max_attempts : ℕ) (p : Puzzle) (g : ℕ → ℕ) (k : ℕ),
      ∃ r, generate max_attempts p g k = .ok r ∧
        r.attempts ≤ max_attempts ∧
        (r.success = false → r.attempts = max_attempts) ∧
        (r.success = true →
          (∀ pos, posInBounds p.grid_size pos → (r.puzzle.grid pos).isSome = true) ∧
          List.Perm (r.puzzle.placements.map fun pl => pl.word) p.words) := by
  intro n p g k
  obtain ⟨r, hrun, hatt, hfail, hsucc⟩ := generate_spec n p g k
  refine ⟨r, hrun, hatt, fun hf => (hfail hf).2, fun hs => ?_⟩
  obtain ⟨_, _, _, hfull, hperm, _⟩ := hsucc hs
  exact ⟨hfull, hperm⟩

/-- C1 (amended): the balancer's priority list is handed to the prober as one
flat candidate list, which the prober shuffles before probing; the committed
direction is the first of the shuffled order that admits the word at any grid
position, so category priority does not constrain which category wins. -/
theorem C1_first_direction_of_shuffled_order :
    ∀ (p : Puzzle) (w : Word) (directions : List Direction) (g : ℕ → ℕ) (k : ℕ),
      ∃ r, try_place_word p w directions g k = .ok r ∧
        List.Perm r.dirs directions ∧
        ∀ p', r.res = some p' →
          ∃ ds1 d ds2, r.dirs = ds1 ++ d :: ds2 ∧
            (∀ d' ∈ ds1, ∀ pos ∈ get_all_positions p,
              p.can_place_word w pos d' = false) ∧
            ∃ pos ∈ get_all_positions p, p.can_place_word w pos d = true ∧
              p.add_placement (WordPlacement.make w pos d) = .ok p' := by
  intro p w directions g k
  obtain ⟨r, hr, hdirs⟩ := try_place_word_ok p w directions g k
  refine ⟨r, hr, by rw [hdirs]; exact shuffleWith_perm g k directions, ?_⟩
  intro p' hres
  exact (try_place_word_some p w directions g k r p' hr hres).2

/-- C1 (counterexample): with three words and zero counts the balancer
returns the four diagonal directions first; the empty 5×5 grid admits a
diagonal placement of CAT at (0,0); yet with the constant-4 draw stream the
prober commits CAT horizontally, because the shuffle put `horizontal_right`
at the front of the flat candidate list. -/
theorem C1_counterexample :
    ((DirectionBalancer.init 3).get_priority_directions 0).take 4 = Directions.diagonal ∧
    threeCats.can_place_word catWord ⟨0, 0⟩ Directions.DIAGONAL_DOWN_RIGHT = true ∧
    tryView (try_place_word threeCats catWord
        ((DirectionBalancer.init 3).get_priority_directions 0) constFour 0) =
      some (some ["horizontal_right"],
        ["horizontal_right", "horizontal_left", "vertical_down", "vertical_up",
         "diagonal_down_right", "diagonal_up_right", "diagonal_down_left",
         "diagonal_up_left"]) := by
  decide

/-- C2: the diagonal gate holds exactly when `diagonal_count` is at least
`total_words * 0.2`, and consequently every puzzle accepted by `generate`
has at least `ceil(0.2 * word_count)` placements in a diagonal direction. -/
theorem C2_diagonal_coverage :
    (∀ b : DirectionBalancer,
      b.has_sufficient_diagonal_coverage = true ↔
        (b.total_words : ℚ) * (0.2 : ℚ) ≤ (b.diagonal_count : ℚ)) ∧
    ∀ (max_attempts : ℕ) (p : Puzzle) (g : ℕ → ℕ) (k : ℕ),
      ∃ r, generate max_attempts p g k = .ok r ∧
        (r.success = true →
          ⌈(r.puzzle.words.length : ℚ) * (0.2 : ℚ)⌉₊ ≤
            (r.puzzle.placements.filter fun pl => pl.direction.is_diagonal).length) := by
  have h02 : (0.2 : ℚ) = 1/5 := by norm_num
  constructor
  · intro b
    have h1 : b.has_sufficient_diagonal_coverage = true ↔
        (b.total_words : ℚ) * oneFifth ≤ (b.diagonal_count : ℚ) := gate_iff_rat b oneFifth
    rw [h1, h02, oneFifth_eq]
  · intro n p g k
    obtain ⟨r, hrun, _, _, hsucc⟩ := generate_spec n p g k
    refine ⟨r, hrun, fun hs => ?_⟩
    obtain ⟨_, _, hwords, _, hperm, hlen⟩ := hsucc hs
    rw [← List.countP_eq_length_filter]
    rw [h02, hwords]
    -- instantiate the gate equivalences at a balancer carrying the two counts
    set m := r.puzzle.placements.countP fun pl => pl.direction.is_diagonal with hm
    have hb := (gate_iff_ceil ⟨p.words.length, 0, 0, m⟩).symm.trans
      (gate_iff_mul ⟨p.words.length, 0, 0, m⟩)
    exact hb.mpr hlen

/-- C7: on every accepted puzzle, each committed placement occupies exactly
`word length` positions, the i-th being `start + i * (row_delta, col_delta)`
and lying inside the grid, and any two placements sharing a cell write the
same character there. -/
theorem C7_placement_invariants :
    ∀ (max_attempts : ℕ) (p : Puzzle) (g : ℕ → ℕ) (k : ℕ),
      ∃ r, generate max_attempts p g k = .ok r ∧
        (r.success = true →
          (∀ pl ∈ r.puzzle.placements,
            pl.positions.length = pl.word.value.length ∧
            ∀ i, (hi : i < pl.positions.length) →
              pl.positions.get ⟨i, hi⟩ = posAt pl.start_position pl.direction i ∧
              posInBounds r.puzzle.grid_size (pl.positions.get ⟨i, hi⟩)) ∧
          ∀ pl1 ∈ r.puzzle.placements, ∀ pl2 ∈ r.puzzle.placements,
            ∀ i j, (hi : i < pl1.positions.length) → (hj : j < pl2.positions.length) →
              pl1.positions.get ⟨i, hi⟩ = pl2.positions.get ⟨j, hj⟩ →
              pl1.word.charAt i = pl2.word.charAt j) := by
  intro n p g k
  obtain ⟨r, hrun, _, _, hsucc⟩ := generate_spec n p g k
  refine ⟨r, hrun, fun hs => ?_⟩
  obtain ⟨hco, _, _, _, _, _⟩ := hsucc hs
  constructor
  · intro pl hpl
    obtain ⟨hposeq, _, hcells⟩ := hco pl hpl
    have hlen : pl.positions.length = pl.word.value.length := by
      rw [hposeq]; exact calculate_positions_length _ _ _
    refine ⟨hlen, ?_⟩
    intro i hi
    have hget : pl.positions.get ⟨i, hi⟩ = posAt pl.start_position pl.direction i := by
      have hi' : i < (calculate_positions pl.word pl.start_position pl.direction).length := by
        rw [← hposeq]; exact hi
      calc pl.positions.get ⟨i, hi⟩
          = (calculate_positions pl.word pl.start_position pl.direction).get ⟨i, hi'⟩ :=
            List.get_of_eq hposeq ⟨i, hi⟩
        _ = posAt pl.start_position pl.direction i := calculate_positions_get _ _ _ _ _
    have hiw : i < pl.word.value.length := by rw [← hlen]; exact hi
    refine ⟨hget, ?_⟩
    rw [hget]
    exact (hcells i hiw).1
  · intro pl1 hpl1 pl2 hpl2 i j hi hj heq
    obtain ⟨hposeq1, _, hcells1⟩ := hco pl1 hpl1
    obtain ⟨hposeq2, _, hcells2⟩ := hco pl2 hpl2
    have hlen1 : pl1.positions.length = pl1.word.value.length := by
      rw [hposeq1]; exact calculate_positions_length _ _ _
    have hlen2 : pl2.positions.length = pl2.word.value.length := by
      rw [hposeq2]; exact calculate_positions_length _ _ _
    have hget1 : pl1.positions.get ⟨i, hi⟩ = posAt pl1.start_position pl1.direction i := by
      have hi' : i < (calculate_positions pl1.word pl1.start_position pl1.direction).length := by
        rw [← hposeq1]; exact hi
      calc pl1.positions.get ⟨i, hi⟩
          = (calculate_positions pl1.word pl1.start_position pl1.direction).get ⟨i, hi'⟩ :=
            List.get_of_eq hposeq1 ⟨i, hi⟩
        _ = _ := calculate_positions_get _ _ _ _ _
    have hget2 : pl2.positions.get ⟨j, hj⟩ = posAt pl2.start_position pl2.direction j := by
      have hj' : j < (calculate_positions pl2.word pl2.start_position pl2.direction).length := by
        rw [← hposeq2]; exact hj
      calc pl2.positions.get ⟨j, hj⟩
          = (calculate_positions pl2.word pl2.start_position pl2.direction).get ⟨j, hj'⟩ :=
            List.get_of_eq hposeq2 ⟨j, hj⟩
        _ = _ := calculate_positions_get _ _ _ _ _
    have hc1 := (hcells1 i (by rw [← hlen1]; exact hi)).2
    have hc2 := (hcells2 j (by rw [← hlen2]; exact hj)).2
    rw [← hget1] at hc1
    rw [← hget2] at hc2
    rw [heq] at hc1
    rw [hc1] at hc2
    exact (Option.some.injEq _ _).mp hc2.symm |>.symm

/-- C8 (amended): every accepted puzzle has exactly one placement per
occurrence of a requested word: the placements' words are a permutation of
the requested word list, and in particular the counts match. -/
theorem C8_one_placement_per_word_occurrence :
    ∀ (max_attempts : ℕ) (p : Puzzle) (g : ℕ → ℕ) (k : ℕ),
      ∃ r, generate max_attempts p g k = .ok r ∧
        (r.success = true →
          List.Perm (r.puzzle.placements.map fun pl => pl.word) r.puzzle.words ∧
          r.puzzle.placements.length = r.puzzle.words.length) := by
  intro n p g k
  obtain ⟨r, hrun, _, _, hsucc⟩ := generate_spec n p g k
  refine ⟨r, hrun, fun hs => ?_⟩
  obtain ⟨_, _, hwords, _, hperm, _⟩ := hsucc hs
  rw [hwords]
  refine ⟨hperm, ?_⟩
  have := hperm.length_eq
  simpa using this

/-- C8 (counterexample): the word list `[CAT, CAT]` is a legal input
(nonempty list of nonempty words), and with the constant-4 draw stream the
generator accepts a 5×5 puzzle whose placements repeat the word value CAT,
so a word value does appear in two placements. -/
theorem C8_counterexample :
    twoCats.words.length = 2 ∧ (∀ w ∈ twoCats.words, w.value.length ≠ 0) ∧
    genView (generate 1000 twoCats constFour 0) = some (true, ["CAT", "CAT"]) := by
  decide

/-- C9 (amended): `add_placement` performs no conflict re-validation — under
the sole assumption that the computed positions are in bounds it succeeds,
writes the word's characters along the path (overwriting whatever was
there), and appends the placement — but each write is bounds-checked by
`set_cell`, so it does raise when a computed position is out of bounds. -/
theorem C9_add_placement_no_revalidation :
    ∀ (p : Puzzle) (w : Word) (start : Position) (dir : Direction),
      (∀ pos ∈ (WordPlacement.make w start dir).positions,
        p.is_valid_position pos = true) →
      ∃ p', p.add_placement (WordPlacement.make w start dir) = .ok p' ∧
        p'.placements = p.placements ++ [WordPlacement.make w start dir] ∧
        ((WordPlacement.make w start dir).positions.Nodup →
          (∀ i, (hi : i < (WordPlacement.make w start dir).positions.length) →
            p'.grid ((WordPlacement.make w start dir).positions.get ⟨i, hi⟩) =
              some (w.charAt i)) ∧
          ∀ q, q ∉ (WordPlacement.make w start dir).positions →
            p'.grid q = p.grid q) := by
  intro p w start dir hv
  obtain ⟨p', hrun, _, _, hplc⟩ := add_placement_ok_append p (WordPlacement.make w start dir) hv
  refine ⟨p', hrun, hplc, fun hnd => ?_⟩
  obtain ⟨p'', hrun', _, _, _, hframe, hwrites⟩ :=
    add_placement_of_valid p (WordPlacement.make w start dir) hv hnd
  obtain rfl : p'' = p' := by rw [hrun] at hrun'; exact (by simpa using hrun' : p' = p'').symm
  exact ⟨fun i hi => hwrites i hi, hframe⟩

/-- C9 (witness): the amended theorem applied to a concrete in-bounds
placement of CAT at (0,0) pointing right on an empty 5×5 puzzle. -/
theorem C9_witness :
    ∃ p', (Puzzle.init 5 [catWord]).add_placement
        (WordPlacement.make catWord ⟨0, 0⟩ Directions.HORIZONTAL_RIGHT) = .ok p' ∧
      p'.placements = [WordPlacement.make catWord ⟨0, 0⟩ Directions.HORIZONTAL_RIGHT] ∧
      ((WordPlacement.make catWord ⟨0, 0⟩ Directions.HORIZONTAL_RIGHT).positions.Nodup →
        (∀ i, (hi : i < (WordPlacement.make catWord ⟨0, 0⟩
              Directions.HORIZONTAL_RIGHT).positions.length) →
          p'.grid ((WordPlacement.make catWord ⟨0, 0⟩
              Directions.HORIZONTAL_RIGHT).positions.get ⟨i, hi⟩) =
            some (catWord.charAt i)) ∧
        ∀ q, q ∉ (WordPlacement.make catWord ⟨0, 0⟩
            Directions.HORIZONTAL_RIGHT).positions →
          p'.grid q = (Puzzle.init 5 [catWord]).grid q) := by
  obtain ⟨p', h1, h2, h3⟩ :=
    C9_add_placement_no_revalidation (Puzzle.init 5 [catWord]) catWord ⟨0, 0⟩
      Directions.HORIZONTAL_RIGHT (by decide)
  exact ⟨p', h1, by simpa [Puzzle.init] using h2, h3⟩

/-- C9 (counterexample): `add_placement` does raise: placing AB at (4,4)
horizontally on a 5×5 grid reaches the out-of-bounds cell (4,5), where
`set_cell` raises `ValueError`, so the call is not exception-free. -/
theorem C9_counterexample :
    (WordPlacement.make abWord ⟨4, 4⟩ Directions.HORIZONTAL_RIGHT).positions =
      [⟨4, 4⟩, ⟨4, 5⟩] ∧
    addView ((Puzzle.init 5 [catWord]).add_placement
      (WordPlacement.make abWord ⟨4, 4⟩ Directions.HORIZONTAL_RIGHT)) = none := by
  decide
